import Mathlib

/-!
A verification development for the open-addressing hash table of
`hash_table.hh` (repository H2CO3/hash_table).

The table stores key/value pairs in a flat slot array whose capacity is
zero or a power of two.  Lookup and removal use a *bounded* linear probe
walk of `max_hash_offset + 1` slots that does not stop at empty slots
(deletion leaves no tombstones); insertion of a fresh key uses an
*unbounded* walk to the first empty slot and may raise the global
`max_hash_offset`.  Growth doubles the capacity (or starts at 8) whenever
`count > capacity * 3 / 4` at insertion time, reinserting every live
entry into a fresh store.

All definitions below are shallow embeddings of the corresponding C++
member functions, keeping their names.  Machine integers are modelled as
`Nat`; the C++ `hash & (size - 1)` masking is kept literally (`&&&`) and
related to `% size` through the power-of-two capacity invariant.
-/

set_option autoImplicit false
set_option linter.unusedSectionVars false
set_option linter.unnecessarySimpa false
set_option linter.unusedVariables false

namespace HashTableSpec

/-- A key/value pair, mirroring `hash_table::KeyValue`. -/
structure KeyValue (K V : Type) where
  key : K
  value : V
deriving DecidableEq, Repr

/-- One slot of the table, mirroring `hash_table::Slot`: a key/value pair
plus a `used` flag. -/
structure Slot (K V : Type) where
  kv : KeyValue K V
  used : Bool
deriving DecidableEq, Repr

variable {K V : Type}

/-- The default-constructed slot `Slot()`: default-constructed key and
value, `used = false`.  This is also what `*slot = {}` assigns in
`remove`. -/
def emptySlot [Inhabited K] [Inhabited V] : Slot K V := ⟨⟨default, default⟩, false⟩

/-- The table state: slot vector, element `count`, and the cached maximal
probe-sequence length (minus one) `max_hash_offset`. -/
structure hash_table (K V : Type) where
  slots : List (Slot K V)
  count : Nat
  max_hash_offset : Nat
deriving DecidableEq, Repr

namespace hash_table

variable [DecidableEq K] [Inhabited K] [Inhabited V]

/-- Reading `slots[i]`.  All in-range accesses of the source are modelled
by this; out-of-range reads (which never occur on the source's paths)
yield the default slot. -/
def slotAt (l : List (Slot K V)) (i : Nat) : Slot K V := l.getD i emptySlot

/-- `mask()`: `slots.size() - 1`. -/
def mask (t : hash_table K V) : Nat := t.slots.length - 1

/-- `key_index(key)`: `Hash{}(key) & mask()`. -/
def key_index (hash : K → Nat) (t : hash_table K V) (k : K) : Nat :=
  hash k &&& mask t

/-- `should_rehash()`: `slots.empty() || count > slots.size() * 3 / 4`. -/
def should_rehash (t : hash_table K V) : Bool :=
  t.slots.isEmpty || decide (t.slots.length * 3 / 4 < t.count)

/-- The do/while loop of `get_slot`: starting at index `i`, check up to
`fuel` consecutive slots (wrapping through `&&& mask`) for a used slot
whose key equals `k`.  `get_slot` calls it with `fuel = max_hash_offset + 1`,
matching offsets `0 .. max_hash_offset` of the source loop. -/
def probe_find (l : List (Slot K V)) (msk : Nat) (k : K) : Nat → Nat → Option Nat
  | _, 0 => none
  | i, fuel + 1 =>
    if (slotAt l i).used ∧ (slotAt l i).kv.key = k then some i
    else probe_find l msk k ((i + 1) &&& msk) fuel

/-- `get_slot(key)`: `nullptr` on an empty table, otherwise the bounded
probe walk from the key's natural slot.  The result is the slot's index
(`none` modelling `nullptr`). -/
def get_slot (hash : K → Nat) (t : hash_table K V) (k : K) : Option Nat :=
  if t.slots.isEmpty then none
  else probe_find t.slots (mask t) k (key_index hash t k) (t.max_hash_offset + 1)

/-- `get(key)`: the stored value of the found slot, if any. -/
def get (hash : K → Nat) (t : hash_table K V) (k : K) : Option V :=
  (get_slot hash t k).map fun i => (slotAt t.slots i).kv.value

/-- `get_or(key, default)`. -/
def get_or (hash : K → Nat) (t : hash_table K V) (k : K) (d : V) : V :=
  match get_slot hash t k with
  | some i => (slotAt t.slots i).kv.value
  | none => d

/-- The while loop of `insert_nonexistent_norehash`: walk from index `i`
(current probe offset `off`) to the first unused slot, returning its index
and the offset at which it was found.  The source loop always terminates
because an unused slot exists; here `fuel` (instantiated with
`slots.length`) bounds the recursion and is never exhausted on the
source's paths. -/
def probe_empty (l : List (Slot K V)) (msk : Nat) : Nat → Nat → Nat → Option (Nat × Nat)
  | _, _, 0 => none
  | i, off, fuel + 1 =>
    if (slotAt l i).used then probe_empty l msk ((i + 1) &&& msk) (off + 1) fuel
    else some (i, off)

/-- `insert_nonexistent_norehash(key, value)`: place the pair in the first
unused slot of the probe chain, increment `count`, and raise
`max_hash_offset` to the placement offset if larger. -/
def insert_nonexistent_norehash (hash : K → Nat) (t : hash_table K V) (k : K) (v : V) :
    hash_table K V :=
  match probe_empty t.slots (mask t) (key_index hash t k) 0 t.slots.length with
  | some (i, off) =>
    { slots := t.slots.set i ⟨⟨k, v⟩, true⟩
      count := t.count + 1
      max_hash_offset := Nat.max t.max_hash_offset off }
  | none => t

/-- `clear()`: drop the slots, zero `count` and `max_hash_offset`. -/
def clear (_t : hash_table K V) : hash_table K V :=
  { slots := [], count := 0, max_hash_offset := 0 }

/-- The reinsertion loop of `rehash()`: fold over the old slot array,
reinserting each used slot's pair via `insert_nonexistent_norehash`. -/
def reinsert (hash : K → Nat) (l : List (Slot K V)) (acc : hash_table K V) :
    hash_table K V :=
  l.foldl
    (fun acc s => if s.used then insert_nonexistent_norehash hash acc s.kv.key s.kv.value else acc)
    acc

/-- `rehash()`: pick the new capacity (8 from empty, else double), start
from a cleared table with that many default slots, and reinsert every used
slot of the old store in array order. -/
def rehash (hash : K → Nat) (t : hash_table K V) : hash_table K V :=
  let new_size := if t.slots.isEmpty then 8 else t.slots.length * 2
  let base : hash_table K V :=
    { slots := List.replicate new_size emptySlot, count := 0, max_hash_offset := 0 }
  reinsert hash t.slots base

/-- `rehash()` with the allocation of the grown slot store made explicit.
The source first moves the old slot vector out of the table and calls
`clear()`, and only then performs the allocating `slots.resize(new_size)`;
`alloc_ok = false` models that resize throwing `std::bad_alloc`.  The
first component tells whether the rehash succeeded; the second is the
table state the caller observes afterwards. -/
def rehash_alloc (hash : K → Nat) (t : hash_table K V) (alloc_ok : Bool) :
    Bool × hash_table K V :=
  let old_slots := t.slots
  let cleared := clear t
  if alloc_ok then
    let new_size := if old_slots.isEmpty then 8 else old_slots.length * 2
    let base := { cleared with slots := List.replicate new_size emptySlot }
    (true, reinsert hash old_slots base)
  else
    (false, cleared)

/-- `set(key, value)`: overwrite in place if the key is found by the
bounded walk; otherwise rehash when needed, then insert the fresh key. -/
def set (hash : K → Nat) (t : hash_table K V) (k : K) (v : V) : hash_table K V :=
  match get_slot hash t k with
  | some i =>
    { t with slots := t.slots.set i ⟨⟨(slotAt t.slots i).kv.key, v⟩, true⟩ }
  | none =>
    let t1 := if should_rehash t then rehash hash t else t
    insert_nonexistent_norehash hash t1 k v

/-- `remove(key)`: if the bounded walk finds the key, reset the slot to the
default (unused) slot and decrement `count`; otherwise no-op. -/
def remove (hash : K → Nat) (t : hash_table K V) (k : K) : hash_table K V :=
  match get_slot hash t k with
  | some i => { t with slots := t.slots.set i emptySlot, count := t.count - 1 }
  | none => t

/-- `size()`. -/
def size (t : hash_table K V) : Nat := t.count

/-- The state effect of `operator[](key)`: value-initialize and insert the
key via `set` when absent, otherwise leave the table unchanged. -/
def index (hash : K → Nat) (t : hash_table K V) (k : K) : hash_table K V :=
  match get_slot hash t k with
  | some _ => t
  | none => set hash t k default

/-- The default constructor `hash_table()`: no slots, zero count and
offset. -/
def emptyTable : hash_table K V := { slots := [], count := 0, max_hash_offset := 0 }

/-- The capacity-growing loop of the pre-sizing constructor:
`while (real_cap < min_num_slots) real_cap *= 2`. -/
def grow_cap (min_num_slots : Nat) (real_cap : Nat) : Nat :=
  if h : 0 < real_cap ∧ real_cap < min_num_slots then grow_cap min_num_slots (real_cap * 2)
  else real_cap
termination_by min_num_slots - real_cap
decreasing_by omega

/-- The pre-sizing constructor `hash_table(std::size_t capacity)`: capacity
is the smallest power of two `≥ 8` whose 3/4 load bound fits the hint. -/
def withCapacity (capacity : Nat) : hash_table K V :=
  let min_num_slots := (capacity * 4 + 2) / 3
  { slots := List.replicate (grow_cap min_num_slots 8) emptySlot
    count := 0
    max_hash_offset := 0 }

/-- The initializer-list constructor: pre-size from the list length, then
`set` each pair in order (later duplicates override earlier ones). -/
def ofList (hash : K → Nat) (elems : List (KeyValue K V)) : hash_table K V :=
  elems.foldl (fun t e => set hash t e.key e.value) (withCapacity elems.length)

/-- The move constructor `hash_table(hash_table&&)`: the new table takes
the slot vector and copies `count` and `max_hash_offset`; the source is
then `clear()`ed.  First component: the new table; second: the
moved-from source. -/
def moveCtor (t : hash_table K V) : hash_table K V × hash_table K V :=
  ({ slots := t.slots, count := t.count, max_hash_offset := t.max_hash_offset }, clear t)

/-- One public mutating operation of the table. -/
inductive Op (K V : Type) where
  | set (k : K) (v : V)
  | remove (k : K)
  | index (k : K)
  | clear

/-- Apply one public operation. -/
def applyOp (hash : K → Nat) (t : hash_table K V) : Op K V → hash_table K V
  | .set k v => set hash t k v
  | .remove k => remove hash t k
  | .index k => index hash t k
  | .clear => clear t

/-- Apply a sequence of public operations, oldest first. -/
def applyOps (hash : K → Nat) (ops : List (Op K V)) (t : hash_table K V) : hash_table K V :=
  ops.foldl (applyOp hash) t

/-- States reachable by constructing a table and running public
operations on it. -/
inductive Reachable (hash : K → Nat) : hash_table K V → Prop where
  | base : Reachable hash emptyTable
  | presized (n : Nat) : Reachable hash (withCapacity n)
  | fromList (l : List (KeyValue K V)) : Reachable hash (ofList hash l)
  | step (t : hash_table K V) (op : Op K V) : Reachable hash t →
      Reachable hash (applyOp hash t op)

/-- Probe displacement of slot `i` from natural slot `start` in a table of
`n` slots: the number of forward steps (wrapping at `n`) from `start` to
`i`.  For `start, i < n` this is the cyclic distance `(i + n - start) % n`. -/
def dispOf (start i n : Nat) : Nat := if start ≤ i then i - start else i + n - start

/-- Number of used slots of a slot array. -/
def usedCount (l : List (Slot K V)) : Nat := (l.filter (fun s => s.used)).length

/-- The keys of the used slots, in array order. -/
def usedKeys (l : List (Slot K V)) : List K :=
  (l.filter (fun s => s.used)).map (fun s => s.kv.key)

/-- Some used slot of the array holds the pair `(k, v)` (list-membership
form). -/
def MemKV (l : List (Slot K V)) (k : K) (v : V) : Prop :=
  ∃ s ∈ l, s.used = true ∧ s.kv.key = k ∧ s.kv.value = v

/-- Some used slot of the table holds the pair `(k, v)` (indexed form). -/
def HasKV (t : hash_table K V) (k : K) (v : V) : Prop :=
  ∃ i, i < t.slots.length ∧ (slotAt t.slots i).used = true ∧
    (slotAt t.slots i).kv.key = k ∧ (slotAt t.slots i).kv.value = v

/-- The key `k` is live in the table. -/
def HasKey (t : hash_table K V) (k : K) : Prop := ∃ v, HasKV t k v

/-- Structural well-formedness of a table state: power-of-two (or zero)
capacity, `count` equal to the number of used slots, pairwise-distinct
live keys, and every used slot within `max_hash_offset` probe steps of
its key's natural slot. -/
structure WF (hash : K → Nat) (t : hash_table K V) : Prop where
  pow2 : t.slots.length = 0 ∨ ∃ m, t.slots.length = 2 ^ m
  countEq : t.count = usedCount t.slots
  distinct : ∀ i j, i < t.slots.length → j < t.slots.length →
    (slotAt t.slots i).used = true → (slotAt t.slots j).used = true →
    (slotAt t.slots i).kv.key = (slotAt t.slots j).kv.key → i = j
  disp : ∀ i, i < t.slots.length → (slotAt t.slots i).used = true →
    dispOf (hash ((slotAt t.slots i).kv.key) % t.slots.length) i t.slots.length ≤
      t.max_hash_offset

/-- Full invariant of reachable states: well-formedness plus the load
bound actually maintained by the code. -/
structure Inv (hash : K → Nat) (t : hash_table K V) extends WF hash t : Prop where
  load : 0 < t.slots.length → t.count ≤ t.slots.length * 3 / 4 + 1

/-- The skipping loop shared by `begin()` and `operator++`: the first index
`≥ i` holding a used slot, or the array length. -/
def skip_unused (l : List (Slot K V)) (i : Nat) : Nat :=
  if h : i < l.length then
    if (slotAt l i).used then i else skip_unused l (i + 1)
  else i
termination_by l.length - i

/-- Driving an iterator: dereference the current slot, advance with
`operator++`, repeat until the end index.  `fuel` bounds the recursion; it
is instantiated with the slot count of the array, which the strictly
increasing slot index never exhausts. -/
def iterAux (l : List (Slot K V)) : Nat → Nat → List (KeyValue K V)
  | 0, _ => []
  | fuel + 1, i =>
    if i < l.length then (slotAt l i).kv :: iterAux l fuel (skip_unused l (i + 1))
    else []

/-- The key/value pairs yielded by iterating from `begin()` to `end()`. -/
def iterList (t : hash_table K V) : List (KeyValue K V) :=
  iterAux t.slots t.slots.length (skip_unused t.slots 0)

/-- Run a sequence of `set(k, v)` calls, oldest first. -/
def applySets (hash : K → Nat) (t : hash_table K V) (ps : List (K × V)) : hash_table K V :=
  ps.foldl (fun a p => set hash a p.1 p.2) t

/-- The value of the most recent pair for key `k` in a sequence of
`set` calls (later entries win). -/
def lastVal (k : K) : List (K × V) → Option V
  | [] => none
  | p :: rest =>
    match lastVal k rest with
    | some v => some v
    | none => if p.1 = k then some p.2 else none

end hash_table

/-- A constant hash function: every key maps to natural slot 0. -/
def constHash : String → Nat := fun _ => 0

/-- The identity hash on natural-number keys. -/
def natHash : Nat → Nat := fun n => n

/-- The central no-tombstone scenario of the spec: insert `"a"`, `"b"`,
`"c"` (values 1, 2, 3) into a fresh table under the constant hash. -/
def scenario_abc : hash_table String Nat :=
  hash_table.set constHash
    (hash_table.set constHash
      (hash_table.set constHash hash_table.emptyTable "a" 1) "b" 2) "c" 3

/-- The scenario table after `remove("b")`. -/
def scenario_removed : hash_table String Nat :=
  hash_table.remove constHash scenario_abc "b"

/-- The operation sequence inserting keys `0 .. 6` with value equal to
key. -/
def ops7 : List (hash_table.Op Nat Nat) :=
  (List.range 7).map (fun i => hash_table.Op.set i i)

/-- A reachable table with capacity 8 holding 7 entries. -/
def table7 : hash_table Nat Nat :=
  hash_table.applyOps natHash ops7 hash_table.emptyTable

/-!
## Theorems

Basic facts about slot access, counting and the displacement measure,
then the probe-walk lemmas, operation-level specifications, the
reachable-state invariant, and finally the claim theorems.
-/

namespace hash_table

variable [DecidableEq K] [Inhabited K] [Inhabited V]

theorem slot_used_lt {l : List (Slot K V)} {j : Nat} (h : (slotAt l j).used = true) :
    j < l.length := by
  by_contra hj
  have : slotAt l j = emptySlot := List.getD_eq_default _ _ (Nat.le_of_not_lt hj)
  rw [this] at h
  simp [emptySlot] at h

theorem slotAt_set_self {l : List (Slot K V)} {i : Nat} (hi : i < l.length)
    (s : Slot K V) : slotAt (l.set i s) i = s := by
  unfold slotAt
  rw [List.getD_eq_getElem?_getD, List.getElem?_set_self (by simpa using hi)]
  rfl

theorem slotAt_set_ne {l : List (Slot K V)} {i j : Nat} (hij : i ≠ j)
    (s : Slot K V) : slotAt (l.set i s) j = slotAt l j := by
  unfold slotAt
  rw [List.getD_eq_getElem?_getD, List.getD_eq_getElem?_getD, List.getElem?_set_ne hij]

theorem slotAt_replicate {n i : Nat} :
    slotAt (List.replicate n (emptySlot (K := K) (V := V))) i = emptySlot := by
  unfold slotAt
  rcases Nat.lt_or_ge i n with h | h
  · rw [List.getD_eq_getElem?_getD, List.getElem?_replicate_of_lt h]
    rfl
  · exact List.getD_eq_default _ _ (by simpa using h)

theorem usedCount_le_length (l : List (Slot K V)) : usedCount l ≤ l.length :=
  List.length_filter_le _ l

theorem usedCount_replicate (n : Nat) :
    usedCount (List.replicate n (emptySlot (K := K) (V := V))) = 0 := by
  unfold usedCount
  induction n with
  | zero => rfl
  | succ n ih => simpa [List.replicate_succ, List.filter, emptySlot] using ih

theorem usedCount_set {l : List (Slot K V)} {j : Nat} (hj : j < l.length)
    (s : Slot K V) :
    usedCount (l.set j s) + (if (slotAt l j).used then 1 else 0) =
      usedCount l + (if s.used then 1 else 0) := by
  induction l generalizing j with
  | nil => simp at hj
  | cons a l ih =>
    cases j with
    | zero =>
      simp only [List.set_cons_zero]
      unfold usedCount slotAt
      simp only [List.getD_cons_zero, List.filter_cons]
      by_cases ha : a.used <;> by_cases hs : s.used <;> simp [ha, hs]
    | succ j =>
      have hj' : j < l.length := by simpa using hj
      have h2 := ih hj'
      simp only [List.set_cons_succ]
      unfold usedCount slotAt at h2 ⊢
      simp only [List.getD_cons_succ, List.filter_cons, List.getD_eq_getElem?_getD] at h2 ⊢
      by_cases ha : a.used <;> simp [ha] <;> omega

theorem exists_unused {l : List (Slot K V)} (h : usedCount l < l.length) :
    ∃ u, u < l.length ∧ (slotAt l u).used = false := by
  induction l with
  | nil => simp at h
  | cons a l ih =>
    cases ha : a.used with
    | false =>
      exact ⟨0, by simp, by simpa [slotAt, List.getD_cons_zero] using ha⟩
    | true =>
      have h' : usedCount l < l.length := by
        unfold usedCount at h ⊢
        simp [List.filter, ha] at h
        omega
      obtain ⟨u, hu, huu⟩ := ih h'
      exact ⟨u + 1, by simpa using hu, by simpa [slotAt, List.getD_cons_succ] using huu⟩

theorem land_mask {m : Nat} (x : Nat) : x &&& (2 ^ m - 1) = x % 2 ^ m :=
  Nat.and_pow_two_sub_one_eq_mod x m

theorem dispOf_self (i n : Nat) : dispOf i i n = 0 := by
  simp [dispOf]

theorem dispOf_lt {i j n : Nat} (hi : i < n) (hj : j < n) : dispOf i j n < n := by
  unfold dispOf
  split <;> omega

theorem dispOf_step {i j n : Nat} (hi : i < n) (hj : j < n) (hne : j ≠ i) :
    dispOf ((i + 1) % n) j n + 1 = dispOf i j n := by
  rcases Nat.lt_or_ge (i + 1) n with h | h
  · rw [Nat.mod_eq_of_lt h]
    unfold dispOf
    split <;> split <;> omega
  · have hin : i + 1 = n := by omega
    rw [hin, Nat.mod_self]
    unfold dispOf
    split <;> split <;> omega

theorem isEmpty_false_of_pos {l : List (Slot K V)} (h : 0 < l.length) :
    l.isEmpty = false := by
  cases l with
  | nil => simp at h
  | cons a l => rfl

theorem probe_find_sound {l : List (Slot K V)} {msk : Nat} {k : K} :
    ∀ fuel i j, probe_find l msk k i fuel = some j →
      (slotAt l j).used = true ∧ (slotAt l j).kv.key = k := by
  intro fuel
  induction fuel with
  | zero => intro i j h; simp [probe_find] at h
  | succ fuel ih =>
    intro i j h
    simp only [probe_find] at h
    split at h
    next hc =>
      injection h with h
      subst h
      exact hc
    next => exact ih _ _ h

theorem probe_find_complete {l : List (Slot K V)} {m : Nat} (hn : l.length = 2 ^ m)
    {k : K} {j : Nat} (hj : j < l.length) (hu : (slotAt l j).used = true)
    (hk : (slotAt l j).kv.key = k) :
    ∀ fuel i, i < l.length → dispOf i j l.length < fuel →
      (probe_find l (l.length - 1) k i fuel).isSome = true := by
  intro fuel
  induction fuel with
  | zero => intro i hi hd; omega
  | succ fuel ih =>
    intro i hi hd
    simp only [probe_find]
    split
    · simp
    next hc =>
      have hij : j ≠ i := by
        intro he
        subst he
        exact hc ⟨hu, hk⟩
      have hstep : (i + 1) &&& (l.length - 1) = (i + 1) % l.length := by
        rw [hn]
        exact land_mask (i + 1)
      have hn0 : 0 < l.length := by rw [hn]; positivity
      rw [hstep]
      have hs := dispOf_step hi hj hij
      exact ih _ (Nat.mod_lt _ hn0) (by omega)

theorem probe_empty_sound {l : List (Slot K V)} {m : Nat} (hn : l.length = 2 ^ m) :
    ∀ fuel i off j off', i < l.length →
      probe_empty l (l.length - 1) i off fuel = some (j, off') →
      j < l.length ∧ (slotAt l j).used = false ∧ off ≤ off' ∧
        dispOf i j l.length ≤ off' - off := by
  intro fuel
  induction fuel with
  | zero => intro i off j off' hi h; simp [probe_empty] at h
  | succ fuel ih =>
    intro i off j off' hi h
    simp only [probe_empty] at h
    split at h
    next hc =>
      have hstep : (i + 1) &&& (l.length - 1) = (i + 1) % l.length := by
        rw [hn]
        exact land_mask (i + 1)
      rw [hstep] at h
      have hn0 : 0 < l.length := by rw [hn]; positivity
      obtain ⟨hj, hju, hoff, hd⟩ := ih _ _ _ _ (Nat.mod_lt _ hn0) h
      have hij : j ≠ i := by
        intro he
        subst he
        rw [hc] at hju
        cases hju
      have hs := dispOf_step hi hj hij
      exact ⟨hj, hju, by omega, by omega⟩
    next hc =>
      injection h with h
      rw [Prod.mk.injEq] at h
      obtain ⟨h1, h2⟩ := h
      subst h1
      subst h2
      refine ⟨hi, ?_, Nat.le_refl _, by simp [dispOf_self]⟩
      simpa using hc

theorem probe_empty_isSome {l : List (Slot K V)} {m : Nat} (hn : l.length = 2 ^ m)
    {u : Nat} (hu : u < l.length) (huu : (slotAt l u).used = false) :
    ∀ fuel i off, i < l.length → dispOf i u l.length < fuel →
      (probe_empty l (l.length - 1) i off fuel).isSome = true := by
  intro fuel
  induction fuel with
  | zero => intro i off hi hd; omega
  | succ fuel ih =>
    intro i off hi hd
    simp only [probe_empty]
    split
    next hc =>
      have hiu : u ≠ i := by
        intro he
        subst he
        rw [hc] at huu
        cases huu
      have hstep : (i + 1) &&& (l.length - 1) = (i + 1) % l.length := by
        rw [hn]
        exact land_mask (i + 1)
      have hn0 : 0 < l.length := by rw [hn]; positivity
      rw [hstep]
      have hs := dispOf_step hi hu hiu
      exact ih _ _ (Nat.mod_lt _ hn0) (by omega)
    · simp

theorem get_slot_sound {hash : K → Nat} {t : hash_table K V} {k : K} {j : Nat}
    (h : get_slot hash t k = some j) :
    j < t.slots.length ∧ (slotAt t.slots j).used = true ∧
      (slotAt t.slots j).kv.key = k := by
  unfold get_slot at h
  split at h
  · exact absurd h (by simp)
  · obtain ⟨h1, h2⟩ := probe_find_sound _ _ _ h
    exact ⟨slot_used_lt h1, h1, h2⟩

theorem get_slot_isSome {hash : K → Nat} {t : hash_table K V} (wf : WF hash t)
    {k : K} {v : V} (h : HasKV t k v) : ∃ j, get_slot hash t k = some j := by
  obtain ⟨i, hi, hu, hk, hv⟩ := h
  have hn0 : 0 < t.slots.length := by omega
  obtain hz | ⟨m, hm⟩ := wf.pow2
  · omega
  unfold get_slot
  rw [if_neg (by simp [isEmpty_false_of_pos hn0])]
  have hki : key_index hash t k = hash k % t.slots.length := by
    unfold key_index mask
    rw [hm]
    exact land_mask (hash k)
  have hd : dispOf (hash k % t.slots.length) i t.slots.length ≤ t.max_hash_offset := by
    have := wf.disp i hi hu
    rwa [hk] at this
  have := probe_find_complete hm hi hu hk (t.max_hash_offset + 1)
    (key_index hash t k) (by rw [hki]; exact Nat.mod_lt _ hn0) (by rw [hki]; omega)
  exact Option.isSome_iff_exists.1 this

theorem get_some_iff {hash : K → Nat} {t : hash_table K V} (wf : WF hash t)
    {k : K} {v : V} : get hash t k = some v ↔ HasKV t k v := by
  constructor
  · intro h
    unfold get at h
    cases hg : get_slot hash t k with
    | none => rw [hg] at h; simp at h
    | some j =>
      rw [hg] at h
      simp only [Option.map_some'] at h
      injection h with h
      obtain ⟨hj, hu, hk⟩ := get_slot_sound hg
      exact ⟨j, hj, hu, hk, h⟩
  · intro h
    obtain ⟨j, hg⟩ := get_slot_isSome wf h
    obtain ⟨hj, hu, hk⟩ := get_slot_sound hg
    obtain ⟨i, hi, hiu, hik, hiv⟩ := h
    have hij : i = j := wf.distinct i j hi hj hiu hu (by rw [hik, hk])
    subst hij
    unfold get
    rw [hg, Option.map_some']
    rw [hiv]

theorem get_none_iff {hash : K → Nat} {t : hash_table K V} (wf : WF hash t)
    {k : K} : get hash t k = none ↔ ¬ HasKey t k := by
  constructor
  · rintro h ⟨v, hv⟩
    rw [(get_some_iff wf).2 hv] at h
    cases h
  · intro h
    cases hg : get hash t k with
    | none => rfl
    | some v => exact absurd ⟨v, (get_some_iff wf).1 hg⟩ h

theorem get_slot_none_iff {hash : K → Nat} {t : hash_table K V} (wf : WF hash t)
    {k : K} : get_slot hash t k = none ↔ ¬ HasKey t k := by
  rw [← get_none_iff wf]
  unfold get
  cases get_slot hash t k <;> simp

theorem slotAt_eq_get {l : List (Slot K V)} {i : Nat} (hi : i < l.length) :
    slotAt l i = l.get ⟨i, hi⟩ := by
  unfold slotAt
  rw [List.getD_eq_getElem?_getD, List.getElem?_eq_getElem hi]
  rfl

theorem hasKV_iff_memKV {t : hash_table K V} {k : K} {v : V} :
    HasKV t k v ↔ MemKV t.slots k v := by
  constructor
  · rintro ⟨i, hi, hu, hk, hv⟩
    refine ⟨slotAt t.slots i, ?_, hu, hk, hv⟩
    rw [slotAt_eq_get hi]
    exact List.get_mem _ _ _
  · rintro ⟨s, hs, hu, hk, hv⟩
    obtain ⟨⟨i, hi⟩, rfl⟩ := List.mem_iff_get.1 hs
    exact ⟨i, hi, by rw [slotAt_eq_get hi]; exact ⟨hu, hk, hv⟩⟩

theorem usedKeys_nodup {hash : K → Nat} {t : hash_table K V} (wf : WF hash t) :
    (usedKeys t.slots).Nodup := by
  unfold usedKeys
  have hp : t.slots.Pairwise
      (fun a b => a.used = true → b.used = true → a.kv.key ≠ b.kv.key) := by
    rw [List.pairwise_iff_get]
    intro i j hij hu hv hkey
    have := wf.distinct i.1 j.1 i.2 j.2
      (by rwa [slotAt_eq_get i.2]) (by rwa [slotAt_eq_get j.2])
      (by rw [slotAt_eq_get i.2, slotAt_eq_get j.2]; exact hkey)
    omega
  have hpf := hp.filter (fun s => s.used)
  have hpk : (t.slots.filter (fun s => s.used)).Pairwise
      (fun a b => a.kv.key ≠ b.kv.key) := by
    refine List.Pairwise.imp_of_mem ?_ hpf
    intro a b ha hb hab
    exact hab (List.of_mem_filter ha) (List.of_mem_filter hb)
  rw [List.Nodup, List.pairwise_map]
  exact hpk

theorem wf_replicate (hash : K → Nat) (n : Nat) (hp : n = 0 ∨ ∃ m, n = 2 ^ m) :
    WF hash (⟨List.replicate n emptySlot, 0, 0⟩ : hash_table K V) := by
  refine ⟨by simpa using hp, ?_, ?_, ?_⟩
  · show 0 = usedCount (List.replicate n (emptySlot (K := K) (V := V)))
    rw [usedCount_replicate]
  · intro i j _ _ hu
    rw [show slotAt (List.replicate n (emptySlot (K := K) (V := V))) i = emptySlot from
      slotAt_replicate] at hu
    simp [emptySlot] at hu
  · intro i _ hu
    rw [show slotAt (List.replicate n (emptySlot (K := K) (V := V))) i = emptySlot from
      slotAt_replicate] at hu
    simp [emptySlot] at hu

theorem insert_spec {hash : K → Nat} {t : hash_table K V} {m : Nat} (wf : WF hash t)
    (hm : t.slots.length = 2 ^ m) (hroom : t.count < t.slots.length)
    {k : K} (habs : ¬ HasKey t k) (v : V) :
    WF hash (insert_nonexistent_norehash hash t k v) ∧
    (insert_nonexistent_norehash hash t k v).slots.length = t.slots.length ∧
    (insert_nonexistent_norehash hash t k v).count = t.count + 1 ∧
    t.max_hash_offset ≤ (insert_nonexistent_norehash hash t k v).max_hash_offset ∧
    (∀ k' v', HasKV (insert_nonexistent_norehash hash t k v) k' v' ↔
      (k' = k ∧ v' = v) ∨ HasKV t k' v') := by
  have hn0 : 0 < t.slots.length := by rw [hm]; positivity
  obtain ⟨u, hu, huu⟩ := exists_unused (by rw [← wf.countEq]; exact hroom)
  have hki : key_index hash t k = hash k % t.slots.length := by
    unfold key_index mask
    rw [hm]
    exact land_mask (hash k)
  have hkil : key_index hash t k < t.slots.length := by
    rw [hki]
    exact Nat.mod_lt _ hn0
  have hmask : mask t = t.slots.length - 1 := rfl
  have hprobe := probe_empty_isSome hm hu huu t.slots.length (key_index hash t k) 0 hkil
    (dispOf_lt hkil hu)
  obtain ⟨⟨j, off⟩, hpe⟩ := Option.isSome_iff_exists.1 hprobe
  obtain ⟨hj, hju, _, hd⟩ := probe_empty_sound hm _ _ _ _ _ hkil hpe
  have ht' : insert_nonexistent_norehash hash t k v =
      ⟨t.slots.set j ⟨⟨k, v⟩, true⟩, t.count + 1, Nat.max t.max_hash_offset off⟩ := by
    unfold insert_nonexistent_norehash
    rw [hmask, hpe]
  rw [ht']
  have hcnt : usedCount (t.slots.set j ⟨⟨k, v⟩, true⟩) = usedCount t.slots + 1 := by
    have := usedCount_set hj (⟨⟨k, v⟩, true⟩ : Slot K V)
    rw [hju] at this
    simpa using this
  refine ⟨⟨?_, ?_, ?_, ?_⟩, by simp, rfl, Nat.le_max_left _ _, ?_⟩
  · simp only [List.length_set]
    exact wf.pow2
  · show t.count + 1 = usedCount (t.slots.set j ⟨⟨k, v⟩, true⟩)
    rw [hcnt, ← wf.countEq]
  · intro i1 i2 hi1 hi2 hu1 hu2 hkeys
    simp only [List.length_set] at hi1 hi2
    by_cases he1 : i1 = j <;> by_cases he2 : i2 = j
    · rw [he1, he2]
    · exfalso
      rw [he1] at hkeys hu1
      rw [slotAt_set_self hj] at hkeys
      rw [slotAt_set_ne (by omega) _] at hkeys hu2
      exact habs ⟨(slotAt t.slots i2).kv.value, i2, hi2, hu2, hkeys.symm, rfl⟩
    · exfalso
      rw [he2] at hkeys hu2
      rw [slotAt_set_self hj] at hkeys
      rw [slotAt_set_ne (by omega) _] at hkeys hu1
      exact habs ⟨(slotAt t.slots i1).kv.value, i1, hi1, hu1, hkeys, rfl⟩
    · rw [slotAt_set_ne (by omega) _] at hu1 hkeys
      rw [slotAt_set_ne (by omega) _] at hu2 hkeys
      exact wf.distinct i1 i2 hi1 hi2 hu1 hu2 hkeys
  · intro i hi hiu
    simp only [List.length_set] at hi
    by_cases he : i = j
    · subst he
      rw [slotAt_set_self hj]
      simp only
      calc dispOf (hash k % (t.slots.set i ⟨⟨k, v⟩, true⟩).length) i
            (t.slots.set i ⟨⟨k, v⟩, true⟩).length
          = dispOf (hash k % t.slots.length) i t.slots.length := by
            simp [List.length_set]
        _ ≤ off := by rw [← hki]; omega
        _ ≤ Nat.max t.max_hash_offset off := Nat.le_max_right _ _
    · rw [slotAt_set_ne (by omega) _] at hiu ⊢
      simp only [List.length_set]
      calc dispOf (hash (slotAt t.slots i).kv.key % t.slots.length) i t.slots.length
          ≤ t.max_hash_offset := wf.disp i hi hiu
        _ ≤ Nat.max t.max_hash_offset off := Nat.le_max_left _ _
  · intro k' v'
    constructor
    · rintro ⟨i, hi, hiu, hik, hiv⟩
      simp only [List.length_set] at hi
      by_cases he : i = j
      · subst he
        rw [slotAt_set_self hj] at hiu hik hiv
        exact Or.inl ⟨hik.symm, hiv.symm⟩
      · rw [slotAt_set_ne (by omega) _] at hiu hik hiv
        exact Or.inr ⟨i, hi, hiu, hik, hiv⟩
    · rintro (⟨hk', hv'⟩ | ⟨i, hi, hiu, hik, hiv⟩)
      · subst hk'
        subst hv'
        exact ⟨j, by simpa using hj, by rw [slotAt_set_self hj], by rw [slotAt_set_self hj],
          by rw [slotAt_set_self hj]⟩
      · have hij : i ≠ j := by
          intro he
          rw [he, hju] at hiu
          cases hiu
        exact ⟨i, by simpa using hi, by rw [slotAt_set_ne (by omega) _]; exact hiu,
          by rw [slotAt_set_ne (by omega) _]; exact hik,
          by rw [slotAt_set_ne (by omega) _]; exact hiv⟩

theorem remove_spec {hash : K → Nat} {t : hash_table K V} (wf : WF hash t) (k : K) :
    WF hash (remove hash t k) ∧
    (remove hash t k).slots.length = t.slots.length ∧
    (remove hash t k).max_hash_offset = t.max_hash_offset ∧
    (remove hash t k).count ≤ t.count ∧
    (∀ k' v', HasKV (remove hash t k) k' v' ↔ HasKV t k' v' ∧ k' ≠ k) := by
  cases hg : get_slot hash t k with
  | none =>
    have habs := (get_slot_none_iff wf).1 hg
    have ht' : remove hash t k = t := by
      unfold remove
      rw [hg]
    rw [ht']
    refine ⟨wf, rfl, rfl, Nat.le_refl _, ?_⟩
    intro k' v'
    constructor
    · intro h
      refine ⟨h, ?_⟩
      rintro rfl
      exact habs ⟨v', h⟩
    · exact fun h => h.1
  | some j =>
    obtain ⟨hj, hju, hjk⟩ := get_slot_sound hg
    have ht' : remove hash t k =
        { t with slots := t.slots.set j emptySlot, count := t.count - 1 } := by
      unfold remove
      rw [hg]
    rw [ht']
    have hcnt := usedCount_set hj (emptySlot (K := K) (V := V))
    rw [hju] at hcnt
    simp only [emptySlot, if_pos, if_neg] at hcnt
    have hcnt' : usedCount (t.slots.set j emptySlot) + 1 = usedCount t.slots := by
      simpa using hcnt
    refine ⟨⟨?_, ?_, ?_, ?_⟩, by simp, rfl, by simp, ?_⟩
    · simp only [List.length_set]
      exact wf.pow2
    · show t.count - 1 = usedCount (t.slots.set j emptySlot)
      rw [wf.countEq]
      omega
    · intro i1 i2 hi1 hi2 hu1 hu2 hkeys
      simp only [List.length_set] at hi1 hi2
      have hne1 : i1 ≠ j := by
        intro he
        rw [he, slotAt_set_self hj] at hu1
        simp [emptySlot] at hu1
      have hne2 : i2 ≠ j := by
        intro he
        rw [he, slotAt_set_self hj] at hu2
        simp [emptySlot] at hu2
      rw [slotAt_set_ne (by omega) _] at hu1 hkeys
      rw [slotAt_set_ne (by omega) _] at hu2 hkeys
      exact wf.distinct i1 i2 hi1 hi2 hu1 hu2 hkeys
    · intro i hi hiu
      simp only [List.length_set] at hi
      have hne : i ≠ j := by
        intro he
        rw [he, slotAt_set_self hj] at hiu
        simp [emptySlot] at hiu
      rw [slotAt_set_ne (by omega) _] at hiu ⊢
      simp only [List.length_set]
      exact wf.disp i hi hiu
    · intro k' v'
      constructor
      · rintro ⟨i, hi, hiu, hik, hiv⟩
        simp only [List.length_set] at hi
        have hne : i ≠ j := by
          intro he
          rw [he, slotAt_set_self hj] at hiu
          simp [emptySlot] at hiu
        rw [slotAt_set_ne (by omega) _] at hiu hik hiv
        refine ⟨⟨i, hi, hiu, hik, hiv⟩, ?_⟩
        rintro rfl
        exact hne (wf.distinct i j hi hj hiu hju (by rw [hik, hjk]))
      · rintro ⟨⟨i, hi, hiu, hik, hiv⟩, hkk⟩
        have hne : i ≠ j := by
          intro he
          subst he
          rw [hik] at hjk
          exact hkk hjk
        exact ⟨i, by simpa using hi, by rw [slotAt_set_ne (by omega) _]; exact hiu,
          by rw [slotAt_set_ne (by omega) _]; exact hik,
          by rw [slotAt_set_ne (by omega) _]; exact hiv⟩

theorem not_hasKey_replicate {n : Nat} {k : K} :
    ¬ HasKey (⟨List.replicate n emptySlot, 0, 0⟩ : hash_table K V) k := by
  rintro ⟨v, i, hlt, hu, _, _⟩
  rw [show (⟨List.replicate n emptySlot, 0, 0⟩ : hash_table K V).slots =
    List.replicate n (emptySlot (K := K) (V := V)) from rfl] at hu
  rw [show slotAt (List.replicate n (emptySlot (K := K) (V := V))) i = emptySlot from
    slotAt_replicate] at hu
  simp [emptySlot] at hu

theorem reinsert_spec (hash : K → Nat) :
    ∀ (l : List (Slot K V)) (acc : hash_table K V) (m : Nat), WF hash acc →
      acc.slots.length = 2 ^ m →
      acc.count + usedCount l ≤ acc.slots.length →
      (usedKeys l).Nodup →
      (∀ s ∈ l, s.used = true → ¬ HasKey acc s.kv.key) →
      WF hash (reinsert hash l acc) ∧
      (reinsert hash l acc).slots.length = acc.slots.length ∧
      (reinsert hash l acc).count = acc.count + usedCount l ∧
      (∀ k v, HasKV (reinsert hash l acc) k v ↔ HasKV acc k v ∨ MemKV l k v) := by
  intro l
  induction l with
  | nil =>
    intro acc m wf hm _ _ _
    refine ⟨wf, rfl, by simp [usedCount, reinsert], ?_⟩
    intro k v
    simp [MemKV, reinsert]
  | cons s rest ih =>
    intro acc m wf hm hroom hnodup hdisj
    by_cases hs : s.used = true
    · have husedc : usedCount (s :: rest) = usedCount rest + 1 := by
        unfold usedCount
        simp [List.filter_cons, hs]
      rw [husedc] at hroom
      have hcntlt : acc.count < acc.slots.length := by omega
      have habs : ¬ HasKey acc s.kv.key := hdisj s (by simp) hs
      obtain ⟨wf', hlen', hcount', _, hkv'⟩ := insert_spec wf hm hcntlt habs s.kv.value
      have hreq : reinsert hash (s :: rest) acc =
          reinsert hash rest (insert_nonexistent_norehash hash acc s.kv.key s.kv.value) := by
        unfold reinsert
        rw [List.foldl_cons, if_pos hs]
      have hkeys : usedKeys (s :: rest) = s.kv.key :: usedKeys rest := by
        unfold usedKeys
        simp [List.filter_cons, hs]
      rw [hkeys, List.nodup_cons] at hnodup
      obtain ⟨hknotin, hnodup'⟩ := hnodup
      have hdisj' : ∀ s' ∈ rest, s'.used = true →
          ¬ HasKey (insert_nonexistent_norehash hash acc s.kv.key s.kv.value) s'.kv.key := by
        rintro s' hs' hsu ⟨v', hv'⟩
        rcases (hkv' _ _).1 hv' with ⟨hk, _⟩ | hold
        · apply hknotin
          rw [← hk]
          unfold usedKeys
          exact List.mem_map_of_mem _ (List.mem_filter.2 ⟨hs', hsu⟩)
        · exact hdisj s' (by simp [hs']) hsu ⟨v', hold⟩
      have hroom' : (insert_nonexistent_norehash hash acc s.kv.key s.kv.value).count +
          usedCount rest ≤
          (insert_nonexistent_norehash hash acc s.kv.key s.kv.value).slots.length := by
        rw [hcount', hlen']
        omega
      obtain ⟨wfr, hlenr, hcountr, hkvr⟩ :=
        ih (insert_nonexistent_norehash hash acc s.kv.key s.kv.value) m wf'
          (by rw [hlen']; exact hm) hroom' hnodup' hdisj'
      rw [hreq]
      refine ⟨wfr, by rw [hlenr, hlen'], by rw [hcountr, hcount', husedc]; omega, ?_⟩
      intro k v
      rw [hkvr]
      constructor
      · rintro (hacc' | hrest)
        · rcases (hkv' _ _).1 hacc' with ⟨hk, hv⟩ | hacc
          · exact Or.inr ⟨s, by simp, hs, hk.symm, hv.symm⟩
          · exact Or.inl hacc
        · obtain ⟨s', hs', hprops⟩ := hrest
          exact Or.inr ⟨s', by simp [hs'], hprops⟩
      · rintro (hacc | ⟨s', hs', hsu, hsk, hsv⟩)
        · exact Or.inl ((hkv' _ _).2 (Or.inr hacc))
        · rcases List.mem_cons.1 hs' with rfl | hs'rest
          · exact Or.inl ((hkv' _ _).2 (Or.inl ⟨hsk.symm, hsv.symm⟩))
          · exact Or.inr ⟨s', hs'rest, hsu, hsk, hsv⟩
    · have hsu : s.used = false := by simpa using hs
      have husedc : usedCount (s :: rest) = usedCount rest := by
        unfold usedCount
        simp [List.filter_cons, hsu]
      have hkeys : usedKeys (s :: rest) = usedKeys rest := by
        unfold usedKeys
        simp [List.filter_cons, hsu]
      have hreq : reinsert hash (s :: rest) acc = reinsert hash rest acc := by
        unfold reinsert
        rw [List.foldl_cons, if_neg hs]
      rw [husedc] at hroom
      rw [hkeys] at hnodup
      obtain ⟨wfr, hlenr, hcountr, hkvr⟩ := ih acc m wf hm hroom hnodup
        (fun s' hs' => hdisj s' (by simp [hs']))
      rw [hreq, husedc]
      refine ⟨wfr, hlenr, hcountr, ?_⟩
      intro k v
      rw [hkvr]
      constructor
      · rintro (h | h)
        · exact Or.inl h
        · obtain ⟨s', hs', hprops⟩ := h
          exact Or.inr ⟨s', by simp [hs'], hprops⟩
      · rintro (h | ⟨s', hs', hsu', hsk, hsv⟩)
        · exact Or.inl h
        · rcases List.mem_cons.1 hs' with rfl | hs'rest
          · rw [hsu'] at hsu
            cases hsu
          · exact Or.inr ⟨s', hs'rest, hsu', hsk, hsv⟩

theorem rehash_spec {hash : K → Nat} {t : hash_table K V} (wf : WF hash t) :
    WF hash (rehash hash t) ∧
    (rehash hash t).slots.length = (if t.slots.isEmpty then 8 else t.slots.length * 2) ∧
    (rehash hash t).count = t.count ∧
    (∀ k v, HasKV (rehash hash t) k v ↔ HasKV t k v) := by
  have hreq : rehash hash t = reinsert hash t.slots
      ⟨List.replicate (if t.slots.isEmpty then 8 else t.slots.length * 2) emptySlot, 0, 0⟩ :=
    rfl
  have hpow : ∃ m', (if t.slots.isEmpty then 8 else t.slots.length * 2) = 2 ^ m' := by
    rcases wf.pow2 with hz | ⟨m, hm⟩
    · have : t.slots.isEmpty = true := by
        cases hl : t.slots with
        | nil => rfl
        | cons a l => rw [hl] at hz; simp at hz
      rw [this]
      exact ⟨3, rfl⟩
    · have hn0 : 0 < t.slots.length := by rw [hm]; positivity
      rw [if_neg (by simp [isEmpty_false_of_pos hn0])]
      exact ⟨m + 1, by rw [hm]; ring⟩
  obtain ⟨m', hm'⟩ := hpow
  have hwfb := wf_replicate (K := K) (V := V) hash _ (Or.inr ⟨m', hm'⟩)
  have hbaselen :
      (⟨List.replicate (if t.slots.isEmpty then 8 else t.slots.length * 2) emptySlot, 0, 0⟩ :
        hash_table K V).slots.length =
      (if t.slots.isEmpty then 8 else t.slots.length * 2) := by
    simp
  have hroom : usedCount t.slots ≤ (if t.slots.isEmpty then 8 else t.slots.length * 2) := by
    have h1 := usedCount_le_length t.slots
    split
    next he =>
      have hnil : t.slots = [] := by
        cases hl : t.slots with
        | nil => rfl
        | cons a l => rw [hl] at he; simp at he
      rw [hnil]
      simp [usedCount]
    next he => omega
  have hdisj : ∀ s ∈ t.slots, s.used = true →
      ¬ HasKey (⟨List.replicate (if t.slots.isEmpty then 8 else t.slots.length * 2) emptySlot,
        0, 0⟩ : hash_table K V) s.kv.key :=
    fun s _ _ h => not_hasKey_replicate h
  obtain ⟨wfr, hlenr, hcountr, hkvr⟩ := reinsert_spec hash t.slots _ m' hwfb
    (by rw [hbaselen, hm']) (by simpa [hbaselen] using hroom) (usedKeys_nodup wf) hdisj
  rw [hreq]
  refine ⟨wfr, by rw [hlenr, hbaselen], by rw [hcountr, ← wf.countEq]; simp, ?_⟩
  intro k v
  rw [hkvr]
  constructor
  · rintro (h | h)
    · exact absurd ⟨v, h⟩ not_hasKey_replicate
    · exact hasKV_iff_memKV.2 h
  · intro h
    exact Or.inr (hasKV_iff_memKV.1 h)

theorem pos_length_of_isEmpty_false {l : List (Slot K V)} (h : l.isEmpty = false) :
    0 < l.length := by
  cases l with
  | nil => simp at h
  | cons a l => simp

theorem set_spec {hash : K → Nat} {t : hash_table K V} (inv : Inv hash t) (k : K) (v : V) :
    Inv hash (set hash t k v) ∧
    (∀ k' v', HasKV (set hash t k v) k' v' ↔
      (k' = k ∧ v' = v) ∨ (HasKV t k' v' ∧ k' ≠ k)) := by
  have wf := inv.toWF
  cases hg : get_slot hash t k with
  | some j =>
    obtain ⟨hj, hju, hjk⟩ := get_slot_sound hg
    have ht' : set hash t k v =
        { t with slots := t.slots.set j ⟨⟨(slotAt t.slots j).kv.key, v⟩, true⟩ } := by
      unfold set
      rw [hg]
    rw [ht']
    have hcnt := usedCount_set hj (⟨⟨(slotAt t.slots j).kv.key, v⟩, true⟩ : Slot K V)
    rw [hju] at hcnt
    simp only [if_pos] at hcnt
    refine ⟨⟨⟨?_, ?_, ?_, ?_⟩, ?_⟩, ?_⟩
    · simp only [List.length_set]
      exact wf.pow2
    · show t.count = usedCount (t.slots.set j _)
      rw [wf.countEq]
      omega
    · intro i1 i2 hi1 hi2 hu1 hu2 hkeys
      simp only [List.length_set] at hi1 hi2
      by_cases he1 : i1 = j <;> by_cases he2 : i2 = j
      · rw [he1, he2]
      · rw [he1, slotAt_set_self hj] at hkeys
        rw [slotAt_set_ne (by omega) _] at hkeys hu2
        rw [he1]
        exact wf.distinct j i2 hj hi2 hju hu2 hkeys
      · rw [he2, slotAt_set_self hj] at hkeys
        rw [slotAt_set_ne (by omega) _] at hkeys hu1
        rw [he2]
        exact wf.distinct i1 j hi1 hj hu1 hju hkeys
      · rw [slotAt_set_ne (by omega) _] at hu1 hkeys
        rw [slotAt_set_ne (by omega) _] at hu2 hkeys
        exact wf.distinct i1 i2 hi1 hi2 hu1 hu2 hkeys
    · intro i hi hiu
      simp only [List.length_set] at hi
      by_cases he : i = j
      · subst he
        rw [slotAt_set_self hj]
        simp only [List.length_set]
        exact wf.disp i hj hju
      · rw [slotAt_set_ne (by omega) _] at hiu ⊢
        simp only [List.length_set]
        exact wf.disp i hi hiu
    · intro hpos
      simp only [List.length_set] at hpos ⊢
      exact inv.load hpos
    · intro k' v'
      constructor
      · rintro ⟨i, hi, hiu, hik, hiv⟩
        simp only [List.length_set] at hi
        by_cases he : i = j
        · subst he
          rw [slotAt_set_self hj] at hik hiv
          simp only at hik hiv
          exact Or.inl ⟨by rw [← hik, hjk], hiv.symm⟩
        · rw [slotAt_set_ne (by omega) _] at hiu hik hiv
          refine Or.inr ⟨⟨i, hi, hiu, hik, hiv⟩, ?_⟩
          rintro rfl
          exact he (wf.distinct i j hi hj hiu hju (by rw [hik, hjk]))
      · rintro (⟨hk', hv'⟩ | ⟨⟨i, hi, hiu, hik, hiv⟩, hkk⟩)
        · subst hk'
          subst hv'
          exact ⟨j, by simpa using hj, by rw [slotAt_set_self hj],
            by rw [slotAt_set_self hj]; exact hjk, by rw [slotAt_set_self hj]⟩
        · have hne : i ≠ j := by
            rintro rfl
            rw [hik] at hjk
            exact hkk hjk
          exact ⟨i, by simpa using hi, by rw [slotAt_set_ne (by omega) _]; exact hiu,
            by rw [slotAt_set_ne (by omega) _]; exact hik,
            by rw [slotAt_set_ne (by omega) _]; exact hiv⟩
  | none =>
    have habs : ¬ HasKey t k := (get_slot_none_iff wf).1 hg
    have ht' : set hash t k v =
        insert_nonexistent_norehash hash (if should_rehash t then rehash hash t else t) k v := by
      unfold set
      rw [hg]
    rw [ht']
    by_cases hsr : should_rehash t = true
    · rw [if_pos hsr]
      obtain ⟨wf1, hlen1, hcount1, hkv1⟩ := rehash_spec wf
      have hcle : t.count ≤ t.slots.length := by
        rw [wf.countEq]
        exact usedCount_le_length _
      have hpow1 : ∃ m1, (rehash hash t).slots.length = 2 ^ m1 := by
        rw [hlen1]
        rcases wf.pow2 with hz | ⟨m, hm⟩
        · rw [if_pos (by cases hl : t.slots with
            | nil => rfl
            | cons a l => rw [hl] at hz; simp at hz)]
          exact ⟨3, rfl⟩
        · have hn0 : 0 < t.slots.length := by rw [hm]; positivity
          rw [if_neg (by simp [isEmpty_false_of_pos hn0])]
          exact ⟨m + 1, by rw [hm]; ring⟩
      obtain ⟨m1, hm1⟩ := hpow1
      have hroom1 : (rehash hash t).count < (rehash hash t).slots.length := by
        rw [hcount1, hlen1]
        split
        next he =>
          have hnil : t.slots = [] := by
            cases hl : t.slots with
            | nil => rfl
            | cons a l => rw [hl] at he; simp at he
          rw [wf.countEq, hnil]
          simp [usedCount]
        next he =>
          have hn0 : 0 < t.slots.length :=
            pos_length_of_isEmpty_false (by simpa using he)
          omega
      have habs1 : ¬ HasKey (rehash hash t) k := by
        rintro ⟨v', hv'⟩
        exact habs ⟨v', (hkv1 _ _).1 hv'⟩
      obtain ⟨wf2, hlen2, hcount2, _, hkv2⟩ := insert_spec wf1 hm1 hroom1 habs1 v
      refine ⟨⟨wf2, ?_⟩, ?_⟩
      · intro _
        rw [hcount2, hcount1, hlen2, hlen1]
        split
        next he =>
          have hnil : t.slots = [] := by
            cases hl : t.slots with
            | nil => rfl
            | cons a l => rw [hl] at he; simp at he
          rw [wf.countEq, hnil]
          simp [usedCount]
        next he => omega
      · intro k' v'
        rw [hkv2 k' v']
        constructor
        · rintro (⟨hk', hv'⟩ | h)
          · exact Or.inl ⟨hk', hv'⟩
          · have ht := (hkv1 _ _).1 h
            refine Or.inr ⟨ht, ?_⟩
            rintro rfl
            exact habs ⟨v', ht⟩
        · rintro (⟨hk', hv'⟩ | ⟨h, _⟩)
          · exact Or.inl ⟨hk', hv'⟩
          · exact Or.inr ((hkv1 _ _).2 h)
    · rw [if_neg hsr]
      have hcond : t.slots.isEmpty = false ∧ t.count ≤ t.slots.length * 3 / 4 := by
        unfold should_rehash at hsr
        simp only [Bool.or_eq_true, decide_eq_true_eq, not_or] at hsr
        refine ⟨by simpa using hsr.1, by omega⟩
      have hn0 : 0 < t.slots.length := pos_length_of_isEmpty_false hcond.1
      obtain hz | ⟨m, hm⟩ := wf.pow2
      · omega
      have hroom : t.count < t.slots.length := by omega
      obtain ⟨wf2, hlen2, hcount2, _, hkv2⟩ := insert_spec wf hm hroom habs v
      refine ⟨⟨wf2, ?_⟩, ?_⟩
      · intro _
        rw [hcount2, hlen2]
        omega
      · intro k' v'
        rw [hkv2 k' v']
        constructor
        · rintro (⟨hk', hv'⟩ | h)
          · exact Or.inl ⟨hk', hv'⟩
          · refine Or.inr ⟨h, ?_⟩
            rintro rfl
            exact habs ⟨v', h⟩
        · rintro (⟨hk', hv'⟩ | ⟨h, _⟩)
          · exact Or.inl ⟨hk', hv'⟩
          · exact Or.inr h

theorem inv_clear {hash : K → Nat} (t : hash_table K V) : Inv hash (clear t) := by
  refine ⟨⟨Or.inl rfl, rfl, ?_, ?_⟩, ?_⟩
  · intro i j hi
    simp [clear] at hi
  · intro i hi
    simp [clear] at hi
  · intro hpos
    simp [clear] at hpos

theorem inv_emptyTable {hash : K → Nat} : Inv hash (emptyTable : hash_table K V) := by
  refine ⟨⟨Or.inl rfl, rfl, ?_, ?_⟩, ?_⟩
  · intro i j hi
    simp [emptyTable] at hi
  · intro i hi
    simp [emptyTable] at hi
  · intro hpos
    simp [emptyTable] at hpos

theorem grow_cap_props (target : Nat) :
    ∀ (d cap : Nat), target - cap = d → 0 < cap → (∃ m, cap = 2 ^ m) →
      (∃ m, grow_cap target cap = 2 ^ m) ∧ cap ≤ grow_cap target cap := by
  intro d
  induction d using Nat.strong_induction_on with
  | _ d ih =>
    intro cap hd hpos hm
    unfold grow_cap
    split
    next hcond =>
      have hlt : target - cap * 2 < d := by omega
      obtain ⟨m, hm'⟩ := hm
      have h2 := ih _ hlt (cap * 2) rfl (by omega) ⟨m + 1, by rw [hm']; ring⟩
      exact ⟨h2.1, by omega⟩
    next hcond => exact ⟨hm, Nat.le_refl _⟩

theorem withCapacity_eq (n : Nat) :
    (withCapacity n : hash_table K V) =
      ⟨List.replicate (grow_cap ((n * 4 + 2) / 3) 8) emptySlot, 0, 0⟩ := rfl

theorem withCapacity_len (n : Nat) :
    (withCapacity n : hash_table K V).slots.length = grow_cap ((n * 4 + 2) / 3) 8 := by
  rw [withCapacity_eq]
  simp

theorem inv_withCapacity {hash : K → Nat} (n : Nat) :
    Inv hash (withCapacity n : hash_table K V) := by
  rw [withCapacity_eq]
  obtain ⟨hpow, _⟩ := grow_cap_props ((n * 4 + 2) / 3) _ 8 rfl (by omega) ⟨3, rfl⟩
  refine ⟨wf_replicate hash _ (Or.inr hpow), ?_⟩
  intro _
  simp

theorem inv_remove {hash : K → Nat} {t : hash_table K V} (inv : Inv hash t) (k : K) :
    Inv hash (remove hash t k) := by
  obtain ⟨wfr, hlen, _, hcnt, _⟩ := remove_spec inv.toWF k
  refine ⟨wfr, ?_⟩
  intro hpos
  rw [hlen] at hpos ⊢
  have := inv.load hpos
  omega

theorem inv_index {hash : K → Nat} {t : hash_table K V} (inv : Inv hash t) (k : K) :
    Inv hash (index hash t k) := by
  unfold index
  cases get_slot hash t k with
  | some j => exact inv
  | none => exact (set_spec inv k default).1

theorem inv_applyOp {hash : K → Nat} {t : hash_table K V} (inv : Inv hash t)
    (op : Op K V) : Inv hash (applyOp hash t op) := by
  cases op with
  | set k v => exact (set_spec inv k v).1
  | remove k => exact inv_remove inv k
  | index k => exact inv_index inv k
  | clear => exact inv_clear t

theorem inv_foldl_set {hash : K → Nat} (l : List (KeyValue K V)) :
    ∀ t : hash_table K V, Inv hash t →
      Inv hash (l.foldl (fun t e => set hash t e.key e.value) t) := by
  induction l with
  | nil => exact fun t inv => inv
  | cons e rest ih =>
    intro t inv
    rw [List.foldl_cons]
    exact ih _ (set_spec inv e.key e.value).1

theorem reachable_inv {hash : K → Nat} {t : hash_table K V}
    (h : Reachable hash t) : Inv hash t := by
  induction h with
  | base => exact inv_emptyTable
  | presized n => exact inv_withCapacity n
  | fromList l => exact inv_foldl_set l _ (inv_withCapacity l.length)
  | step t op _ ih => exact inv_applyOp ih op

theorem reachable_applyOps {hash : K → Nat} {t : hash_table K V}
    (h : Reachable hash t) (ops : List (Op K V)) :
    Reachable hash (applyOps hash ops t) := by
  induction ops generalizing t with
  | nil => exact h
  | cons op rest ih => exact ih (Reachable.step t op h)

theorem get_set {hash : K → Nat} {t : hash_table K V} (inv : Inv hash t)
    (k k' : K) (v : V) :
    get hash (set hash t k v) k' = if k' = k then some v else get hash t k' := by
  obtain ⟨invs, hkv⟩ := set_spec inv k v
  by_cases he : k' = k
  · subst he
    rw [if_pos rfl]
    exact (get_some_iff invs.toWF).2 ((hkv _ _).2 (Or.inl ⟨rfl, rfl⟩))
  · rw [if_neg he]
    cases hg : get hash t k' with
    | some w =>
      exact (get_some_iff invs.toWF).2
        ((hkv _ _).2 (Or.inr ⟨(get_some_iff inv.toWF).1 hg, he⟩))
    | none =>
      rw [get_none_iff invs.toWF]
      rintro ⟨w, hw⟩
      rcases (hkv _ _).1 hw with ⟨h1, _⟩ | ⟨h1, _⟩
      · exact he h1
      · exact (get_none_iff inv.toWF).1 hg ⟨w, h1⟩

theorem slotAt_eq_getElem {l : List (Slot K V)} {i : Nat} (hi : i < l.length) :
    slotAt l i = l[i] := by
  rw [slotAt_eq_get hi]
  exact List.get_eq_getElem l ⟨i, hi⟩

theorem skip_unused_spec (l : List (Slot K V)) :
    ∀ (d i : Nat), l.length - i = d →
      i ≤ skip_unused l i ∧
      skip_unused l i ≤ Nat.max i l.length ∧
      (skip_unused l i < l.length → (slotAt l (skip_unused l i)).used = true) ∧
      (∀ j, i ≤ j → j < skip_unused l i → (slotAt l j).used = false) := by
  intro d
  induction d using Nat.strong_induction_on with
  | _ d ih =>
    intro i hd
    unfold skip_unused
    split
    next hi =>
      split
      next hu =>
        exact ⟨Nat.le_refl _, Nat.le_max_left _ _, fun _ => hu, fun j h1 h2 => by omega⟩
      next hu =>
        have hlt : l.length - (i + 1) < d := by omega
        obtain ⟨h1, h2, h3, h4⟩ := ih _ hlt (i + 1) rfl
        have hm1 : Nat.max (i + 1) l.length = l.length := Nat.max_eq_right (by omega)
        have hm2 : Nat.max i l.length = l.length := Nat.max_eq_right (by omega)
        rw [hm1] at h2
        refine ⟨by omega, by rw [hm2]; omega, h3, ?_⟩
        intro j hj1 hj2
        rcases Nat.eq_or_lt_of_le hj1 with rfl | hj1'
        · simpa using hu
        · exact h4 j (by omega) hj2
    next hi =>
      exact ⟨Nat.le_refl _, Nat.le_max_left _ _, fun h => by omega, fun j h1 h2 => by omega⟩

theorem filter_drop_eq_of_unused (l : List (Slot K V)) :
    ∀ (c i j : Nat), j - i = c → i ≤ j → j ≤ l.length →
      (∀ m, i ≤ m → m < j → (slotAt l m).used = false) →
      (l.drop i).filter (fun s => s.used) = (l.drop j).filter (fun s => s.used) := by
  intro c
  induction c using Nat.strong_induction_on with
  | _ c ih =>
    intro i j hc hij hjl hall
    rcases Nat.eq_or_lt_of_le hij with rfl | hlt
    · rfl
    · have hi : i < l.length := by omega
      rw [List.drop_eq_getElem_cons hi, List.filter_cons]
      rw [if_neg (by rw [← slotAt_eq_getElem hi]
                     rw [hall i (Nat.le_refl _) hlt]
                     simp)]
      exact ih (j - (i + 1)) (by omega) (i + 1) j rfl (by omega) hjl
        (fun m h1 h2 => hall m (by omega) h2)

theorem filter_drop_nil_of_unused (l : List (Slot K V)) {i : Nat}
    (hall : ∀ m, i ≤ m → m < l.length → (slotAt l m).used = false) :
    (l.drop i).filter (fun s => s.used) = [] := by
  rcases le_or_lt i l.length with hle | hgt
  · rw [filter_drop_eq_of_unused l (l.length - i) i l.length rfl hle (Nat.le_refl _) hall]
    rw [List.drop_length]
    rfl
  · rw [List.drop_eq_nil_of_le (by omega)]
    rfl

theorem iterAux_spec (l : List (Slot K V)) :
    ∀ (d i : Nat), l.length - i = d → ∀ fuel, l.length ≤ i + fuel →
      iterAux l fuel (skip_unused l i) =
        ((l.drop i).filter (fun s => s.used)).map (fun s => s.kv) := by
  intro d
  induction d using Nat.strong_induction_on with
  | _ d ih =>
    intro i hd fuel hfuel
    obtain ⟨h1, h2, h3, h4⟩ := skip_unused_spec l (l.length - i) i rfl
    rcases Nat.lt_or_ge (skip_unused l i) l.length with hj | hj
    · -- the skip lands on a used slot strictly inside the array
      have hi : i < l.length := by omega
      have hfpos : 0 < fuel := by omega
      obtain ⟨f, rfl⟩ : ∃ f, fuel = f + 1 := ⟨fuel - 1, by omega⟩
      have hstep : iterAux l (f + 1) (skip_unused l i) =
          if skip_unused l i < l.length then
            (slotAt l (skip_unused l i)).kv ::
              iterAux l f (skip_unused l (skip_unused l i + 1))
          else [] := rfl
      rw [hstep, if_pos hj]
      have hdrop : (l.drop i).filter (fun s => s.used) =
          (l.drop (skip_unused l i)).filter (fun s => s.used) :=
        filter_drop_eq_of_unused l (skip_unused l i - i) i (skip_unused l i) rfl h1
          (by omega) (fun m hm1 hm2 => h4 m hm1 hm2)
      rw [hdrop, List.drop_eq_getElem_cons hj, List.filter_cons,
        if_pos (by rw [← slotAt_eq_getElem hj]; simpa using h3 hj)]
      rw [List.map_cons, ← slotAt_eq_getElem hj]
      congr 1
      exact ih (l.length - (skip_unused l i + 1)) (by omega) (skip_unused l i + 1) rfl f
        (by omega)
    · -- no used slot remains
      have hnil : (l.drop i).filter (fun s => s.used) = [] :=
        filter_drop_nil_of_unused l (fun m hm1 hm2 => h4 m hm1 (by omega))
      rw [hnil]
      cases fuel with
      | zero => rfl
      | succ f =>
        have hstep : iterAux l (f + 1) (skip_unused l i) =
            if skip_unused l i < l.length then
              (slotAt l (skip_unused l i)).kv ::
                iterAux l f (skip_unused l (skip_unused l i + 1))
            else [] := rfl
        rw [hstep, if_neg (by omega)]
        rfl

theorem iterList_eq (t : hash_table K V) :
    iterList t = (t.slots.filter (fun s => s.used)).map (fun s => s.kv) := by
  unfold iterList
  have := iterAux_spec t.slots t.slots.length 0 rfl t.slots.length (by omega)
  simpa using this

theorem applySets_get {hash : K → Nat} :
    ∀ (ps : List (K × V)) (t : hash_table K V), Inv hash t → ∀ k,
      get hash (applySets hash t ps) k =
        match lastVal k ps with
        | some v => some v
        | none => get hash t k := by
  intro ps
  induction ps with
  | nil =>
    intro t inv k
    rfl
  | cons p rest ih =>
    intro t inv k
    have h1 : applySets hash t (p :: rest) = applySets hash (set hash t p.1 p.2) rest := rfl
    rw [h1, ih _ (set_spec inv p.1 p.2).1 k]
    cases hl : lastVal k rest with
    | some v =>
      rw [show lastVal k (p :: rest) = some v from by unfold lastVal; rw [hl]]
    | none =>
      rw [get_set inv p.1 k p.2]
      rw [show lastVal k (p :: rest) = (if p.1 = k then some p.2 else none) from by
        unfold lastVal
        rw [hl]]
      by_cases he : p.1 = k
      · simp [he]
      · simp [he, Ne.symm he]

/-!
### The claim theorems
-/

/-- C1: under a constant hash function (all keys share natural slot 0),
inserting `"a"`, `"b"`, `"c"` in that order into a fresh table occupies
slots 0, 1, 2; after `remove("b")` empties the mid-chain slot 1,
`get("c")` still succeeds with the value originally stored for `"c"`:
the bounded walk does not stop at the emptied slot. -/
theorem claim_C1 :
    (slotAt scenario_abc.slots 0).kv.key = "a" ∧
    (slotAt scenario_abc.slots 0).used = true ∧
    (slotAt scenario_abc.slots 1).kv.key = "b" ∧
    (slotAt scenario_abc.slots 1).used = true ∧
    (slotAt scenario_abc.slots 2).kv.key = "c" ∧
    (slotAt scenario_abc.slots 2).used = true ∧
    (slotAt scenario_removed.slots 1).used = false ∧
    (slotAt scenario_removed.slots 2).used = true ∧
    get constHash scenario_removed "c" = some 3 := by
  decide

/-- C2 as frozen is false: after the seventh `set` into a fresh table the
capacity is 8 and the count is 7, so `count ≤ capacity * 3 / 4` (= 6)
fails in a reachable state. -/
theorem claim_C2_counterexample :
    Reachable natHash table7 ∧
    0 < table7.slots.length ∧
    ¬ (table7.count ≤ table7.slots.length * 3 / 4) :=
  ⟨reachable_applyOps Reachable.base ops7, by decide, by decide⟩

/-- C2 amended: after every public operation (and construction), if the
capacity is positive then `count ≤ capacity * 3 / 4 + 1`; the code
triggers growth only when an insertion finds `count > capacity * 3 / 4`,
so a single insertion may land one past the 3/4 mark. -/
theorem claim_C2 {hash : K → Nat} {t : hash_table K V} (hr : Reachable hash t)
    (hpos : 0 < t.slots.length) :
    t.count ≤ t.slots.length * 3 / 4 + 1 :=
  (reachable_inv hr).load hpos

theorem claim_C2_witness :
    Reachable natHash table7 ∧ 0 < table7.slots.length ∧
      table7.count ≤ table7.slots.length * 3 / 4 + 1 :=
  ⟨reachable_applyOps Reachable.base ops7, by decide,
    claim_C2 (reachable_applyOps Reachable.base ops7) (by decide)⟩

/-- C3: a key present before an insertion that triggers a rehash (the
insertion of a fresh key into a table with `should_rehash` true) is still
mapped to the same value afterwards. -/
theorem claim_C3 {hash : K → Nat} {t : hash_table K V} (hr : Reachable hash t)
    (k knew : K) (v vnew : V)
    (hpresent : get hash t k = some v)
    (hfresh : get hash t knew = none)
    (htrigger : should_rehash t = true) :
    get hash (set hash t knew vnew) k = some v := by
  have inv := reachable_inv hr
  have hne : k ≠ knew := by
    rintro rfl
    rw [hpresent] at hfresh
    cases hfresh
  rw [get_set inv knew k vnew, if_neg hne]
  exact hpresent

theorem claim_C3_witness :
    get natHash table7 0 = some 0 ∧ get natHash table7 100 = none ∧
      should_rehash table7 = true ∧
      get natHash (set natHash table7 100 5) 0 = some 0 :=
  ⟨by decide, by decide, by decide,
    claim_C3 (reachable_applyOps Reachable.base ops7) 0 100 0 5
      (by decide) (by decide) (by decide)⟩

/-- C4 as frozen is false in its rehash half: rehashing the scenario table
resets `max_hash_offset` to 0 but then recomputes it from the
reinsertions, ending at 1 (for the two surviving constant-hash keys), not
at 0. -/
theorem claim_C4_counterexample :
    2 ≤ scenario_removed.max_hash_offset ∧
    (rehash constHash scenario_removed).max_hash_offset = 1 ∧
    (rehash constHash scenario_removed).max_hash_offset ≠ 0 := by
  decide

/-- C4 amended: in the three-colliding-keys scenario `max_displacement`
is at least 2; a subsequent `clear()` resets it to 0, while a subsequent
rehash resets it to 0 and then recomputes it from the reinserted entries
only — here ending at 1. -/
theorem claim_C4 :
    2 ≤ scenario_removed.max_hash_offset ∧
    (clear scenario_removed).max_hash_offset = 0 ∧
    (rehash constHash scenario_removed).max_hash_offset = 1 := by
  decide

/-- C5 as frozen is false: the source's `rehash` moves the old slots out
of the table and `clear()`s it *before* the allocating resize, so a failed
allocation leaves the table emptied (here count 0 instead of the prior 2),
not in its prior valid state. -/
theorem claim_C5_counterexample :
    (rehash_alloc constHash scenario_removed false).1 = false ∧
    (rehash_alloc constHash scenario_removed false).2 ≠ scenario_removed ∧
    (rehash_alloc constHash scenario_removed false).2.count = 0 ∧
    scenario_removed.count = 2 := by
  decide

/-- C5 amended: an allocation failure while growing the slot store is
propagated to the caller, but the table observed afterwards is the
cleared empty table (slots moved out and `clear()` run before the
allocating resize), not the prior state; a successful allocation performs
the ordinary rehash. -/
theorem claim_C5 (hash : K → Nat) (t : hash_table K V) :
    rehash_alloc hash t false = (false, emptyTable) ∧
    rehash_alloc hash t true = (true, rehash hash t) :=
  ⟨rfl, rfl⟩

/-- C6: for any sequence of `set(k, v)` calls run on a reachable table,
`get(k)` afterwards returns the value of the most recent `set` for `k`
in the sequence. -/
theorem claim_C6 {hash : K → Nat} {t : hash_table K V} (hr : Reachable hash t)
    (ps : List (K × V)) (k : K) (v : V) (hlast : lastVal k ps = some v) :
    get hash (applySets hash t ps) k = some v := by
  rw [applySets_get ps t (reachable_inv hr) k, hlast]

theorem claim_C6_witness :
    lastVal 1 [(1, 10), (2, 20), (1, 30)] = some 30 ∧
      get natHash (applySets natHash (emptyTable : hash_table Nat Nat)
        [(1, 10), (2, 20), (1, 30)]) 1 = some 30 :=
  ⟨by decide, claim_C6 Reachable.base [(1, 10), (2, 20), (1, 30)] 1 30 (by decide)⟩

/-- C7: every reachable capacity is 0 or a power of two; the pre-sizing
constructor yields a power-of-two capacity of at least 8, and `rehash`
yields 8 from an empty store and otherwise doubles the capacity. -/
theorem claim_C7 {hash : K → Nat} {t : hash_table K V} (hr : Reachable hash t)
    (n : Nat) :
    (t.slots.length = 0 ∨ ∃ m, t.slots.length = 2 ^ m) ∧
    (8 ≤ (withCapacity n : hash_table K V).slots.length ∧
      ∃ m, (withCapacity n : hash_table K V).slots.length = 2 ^ m) ∧
    ((rehash hash t).slots.length = if t.slots.isEmpty then 8 else t.slots.length * 2) := by
  refine ⟨(reachable_inv hr).pow2, ?_, (rehash_spec (reachable_inv hr).toWF).2.1⟩
  rw [withCapacity_len]
  obtain ⟨hpow, hge⟩ := grow_cap_props ((n * 4 + 2) / 3) _ 8 rfl (by omega) ⟨3, rfl⟩
  exact ⟨hge, hpow⟩

theorem claim_C7_witness :
    Reachable natHash table7 ∧
      ((table7.slots.length = 0 ∨ ∃ m, table7.slots.length = 2 ^ m) ∧
        (8 ≤ (withCapacity 5 : hash_table Nat Nat).slots.length ∧
          ∃ m, (withCapacity 5 : hash_table Nat Nat).slots.length = 2 ^ m) ∧
        ((rehash natHash table7).slots.length =
          if table7.slots.isEmpty then 8 else table7.slots.length * 2)) :=
  ⟨reachable_applyOps Reachable.base ops7,
    claim_C7 (reachable_applyOps Reachable.base ops7) 5⟩

/-- C8: iterating a reachable table from `begin()` to `end()` yields
exactly `count` key/value pairs, each key exactly once, and the yielded
keys are exactly those on which `get` succeeds. -/
theorem claim_C8 {hash : K → Nat} {t : hash_table K V} (hr : Reachable hash t) :
    (iterList t).length = t.count ∧
    ((iterList t).map KeyValue.key).Nodup ∧
    (∀ k, k ∈ (iterList t).map KeyValue.key ↔ (get hash t k).isSome = true) := by
  have inv := reachable_inv hr
  rw [iterList_eq]
  refine ⟨?_, ?_, ?_⟩
  · rw [List.length_map, inv.countEq]
    rfl
  · have hnd := usedKeys_nodup inv.toWF
    unfold usedKeys at hnd
    simpa [List.map_map, Function.comp] using hnd
  · intro k
    constructor
    · intro hk
      simp only [List.map_map, List.mem_map, List.mem_filter, Function.comp] at hk
      obtain ⟨s, ⟨hs, hsu⟩, hke⟩ := hk
      have hkv : HasKV t k s.kv.value :=
        hasKV_iff_memKV.2 ⟨s, hs, by simpa using hsu, hke, rfl⟩
      rw [Option.isSome_iff_exists]
      exact ⟨s.kv.value, (get_some_iff inv.toWF).2 hkv⟩
    · intro hk
      obtain ⟨v, hv⟩ := Option.isSome_iff_exists.1 hk
      obtain ⟨s, hs, hsu, hsk, _⟩ := hasKV_iff_memKV.1 ((get_some_iff inv.toWF).1 hv)
      simp only [List.map_map, List.mem_map, List.mem_filter, Function.comp]
      exact ⟨s, ⟨hs, by simpa using hsu⟩, hsk⟩

theorem claim_C8_witness :
    Reachable constHash scenario_removed ∧
      ((iterList scenario_removed).length = scenario_removed.count ∧
        ((iterList scenario_removed).map KeyValue.key).Nodup ∧
        (∀ k, k ∈ (iterList scenario_removed).map KeyValue.key ↔
          (get constHash scenario_removed k).isSome = true)) := by
  have heq : applyOps constHash [Op.set "a" 1, Op.set "b" 2, Op.set "c" 3, Op.remove "b"]
      emptyTable = scenario_removed := rfl
  have hbase : Reachable constHash (emptyTable : hash_table String Nat) := Reachable.base
  have hre := reachable_applyOps hbase
    [Op.set "a" 1, Op.set "b" 2, Op.set "c" 3, Op.remove "b"]
  rw [heq] at hre
  exact ⟨hre, claim_C8 hre⟩

/-- C9: in every reachable state, `count` equals the number of slots whose
`used` flag is true. -/
theorem claim_C9 {hash : K → Nat} {t : hash_table K V} (hr : Reachable hash t) :
    t.count = usedCount t.slots :=
  (reachable_inv hr).countEq

theorem claim_C9_witness :
    Reachable natHash table7 ∧ table7.count = usedCount table7.slots :=
  ⟨reachable_applyOps Reachable.base ops7,
    claim_C9 (reachable_applyOps Reachable.base ops7)⟩

/-- C10: move construction transfers the whole state (slots, count,
`max_hash_offset`) to the new table and leaves the source cleared:
capacity 0, count 0, offset 0, and every lookup on it misses. -/
theorem claim_C10 (hash : K → Nat) (t : hash_table K V) :
    (moveCtor t).1 = t ∧
    (moveCtor t).2.slots.length = 0 ∧
    (moveCtor t).2.count = 0 ∧
    (moveCtor t).2.max_hash_offset = 0 ∧
    (∀ k, get hash (moveCtor t).2 k = none) :=
  ⟨rfl, rfl, rfl, rfl, fun _ => rfl⟩

end hash_table

end HashTableSpec
